import Mathlib


/-!
Verification development for the nala bootstrapping controller and its
document-filter pipeline.  The definitions below are shallow embeddings of
the Python sources `nala/bootstrapping/iteration.py` and
`nala/bootstrapping/document_filters.py`; each theorem settles one claim of
the specification against those embeddings.
-/

namespace NalaModel

/-! ### Iteration construction (iteration.py, `Iteration.__init__`)

`found` is the list of ordinals parsed from the existing `iteration_<n>`
directories; `hasCandidates n` / `hasReviewed n` report whether the
directory `iteration_<n>` has a `candidates` / `reviewed` subdirectory. -/

/-- The running-maximum loop of `Iteration.__init__`: `self.number = -1`
followed by `if found_iteration > self.number: self.number = found_iteration`
over the glob results. -/
def maxFound (found : List Int) : Int :=
  found.foldl (fun acc n => if n > acc then n else acc) (-1)

/-- The iteration number computed when the constructor is called without an
explicit `iteration_nr`: take the highest found ordinal, advance by one when
that ordinal has both a `candidates` and a `reviewed` directory, and advance
a resulting 0 to 1. -/
def iterationNumber (found : List Int) (hasCandidates hasReviewed : Int → Bool) : Int :=
  let n0 := maxFound found
  let n1 := if hasCandidates n0 && hasReviewed n0 then n0 + 1 else n0
  if n1 = 0 then n1 + 1 else n1

/-- The working-directory name `"iteration_{}".format(self.number)` that the
constructor creates when absent. -/
def currentFolderName (n : Int) : String :=
  "iteration_" ++ toString n

/-! ### Entity matching in `Iteration.evaluation` (iteration.py)

Entities carry a class id, a character offset and a literal text, mirroring
the fields the matching loop and its sentinel touch.  The equality operator
(`Entity.equality_operator = 'exact_or_overlapping'`, implemented by the
external nalaf collaborator) is passed in as a boolean relation `eq`. -/

structure Ent where
  classId : String
  offset : Int
  text : String
deriving DecidableEq

/-- The sentinel `Entity(class_id='e_2', offset=-1, text='')` used for
unmatched entities. -/
def sentinelEnt : Ent := ⟨"e_2", -1, ""⟩

/-- Python's guarded `if x in l: del l[l.index(x)]`: drop the first element
of `l` that compares equal to `x`, keep `l` unchanged when none does. -/
def removeFirst (eq : Ent → Ent → Bool) (x : Ent) : List Ent → List Ent
  | [] => []
  | y :: ys => if eq y x then ys else y :: removeFirst eq x ys

/-- `itertools.product(part.annotations, part.predicted_annotations)` in
list order. -/
def pairsOf (golds preds : List Ent) : List (Ent × Ent) :=
  golds.flatMap (fun a => preds.map (fun p => (a, p)))

/-- The matching loop of `Iteration.evaluation`: iterate the cartesian
product, on `ann == pred` append the pair to `results` and delete the first
equal element from each not-found pool. -/
def matchLoop (eq : Ent → Ent → Bool) :
    List (Ent × Ent) → List (Ent × Ent) → List Ent → List Ent →
      List (Ent × Ent) × List Ent × List Ent
  | [], res, nfa, nfp => (res, nfa, nfp)
  | q :: rest, res, nfa, nfp =>
    if eq q.1 q.2 then
      matchLoop eq rest (res ++ [q]) (removeFirst eq q.1 nfa) (removeFirst eq q.2 nfp)
    else
      matchLoop eq rest res nfa nfp

/-- The per-part results of `Iteration.evaluation`: the recorded pairs of
the loop followed by a sentinel row for each remaining not-found gold and
each remaining not-found prediction. -/
def evalPartResults (eq : Ent → Ent → Bool) (golds preds : List Ent) : List (Ent × Ent) :=
  let r := matchLoop eq (pairsOf golds preds) [] golds preds
  r.1 ++ r.2.1.map (fun a => (a, sentinelEnt)) ++ r.2.2.map (fun p => (sentinelEnt, p))

/-- Modelled from the spec: nalaf's Entity equality under the
`exact_or_overlapping` operator — same class and either identical offset and
text or intersecting spans (span = offset to offset + length of text). -/
def eqExactOrOverlapping (a b : Ent) : Bool :=
  a.classId == b.classId &&
    ((a.offset == b.offset && a.text == b.text) ||
      (max a.offset b.offset <
        min (a.offset + (a.text.length : Int)) (b.offset + (b.text.length : Int))))

/-! ### Manual filters (document_filters.py)

The console is modelled as a list of pending answers; the persistent cache
as an association list from document id to the stored boolean decision (new
entries are prepended, lookup takes the most recent).  A run returns `none`
when it blocks on input with no answer left; otherwise it returns the
yielded pairs, the final cache and the unconsumed answers.  The documents
themselves are opaque (`α`). -/

/-- Cache lookup, most recent entry first (`pmid in self.cache` /
`self.cache[pmid]`). -/
def lookupCache (pmid : Nat) : List (Nat × Bool) → Option Bool
  | [] => none
  | e :: rest => if e.1 = pmid then some e.2 else lookupCache pmid rest

/-- `answer.lower()` (ASCII case folding suffices for the recognized
tokens). -/
def lowerStr (s : String) : String := String.mk (s.data.map Char.toLower)

/-- `answer.lower() in ['yes', 'y']` of `ManualDocumentFilter.filter`. -/
def isYes (s : String) : Bool := s == "yes" || s == "y"

/-- Prepend the current pair to a run's output when its decision is true
(the `if self.cache[pmid]: yield pmid, doc` step). -/
def prependIf {α : Type} (b : Bool) (p : Nat × α)
    (r : Option (List (Nat × α) × List (Nat × Bool) × List String)) :
    Option (List (Nat × α) × List (Nat × Bool) × List String) :=
  match r with
  | none => none
  | some (out, c, rem) => some ((if b then [p] else []) ++ out, c, rem)

/-- `ManualDocumentFilter.filter`: for each uncached id, consume one answer,
store `answer.lower() in ['yes', 'y']` in the cache, break the whole loop
when the answer lowers to `'s'`, and yield the pair when its cache entry is
true. -/
def mdfRun {α : Type} :
    List (Nat × Bool) → List String → List (Nat × α) →
      Option (List (Nat × α) × List (Nat × Bool) × List String)
  | cache, answers, [] => some ([], cache, answers)
  | cache, answers, (pmid, d) :: rest =>
    match lookupCache pmid cache with
    | some b => prependIf b (pmid, d) (mdfRun cache answers rest)
    | none =>
      match answers with
      | [] => none
      | ans :: restAns =>
        let b := isYes (lowerStr ans)
        if lowerStr ans == "s" then some ([], (pmid, b) :: cache, restAns)
        else prependIf b (pmid, d) (mdfRun ((pmid, b) :: cache) restAns rest)

/-- The recognized console tokens of `ManualStatsDocumentFilter.filter`:
a configured yes-answer, `'no'` or `'stop'`. -/
def msfRecognized (yesAnswers : List String) (s : String) : Bool :=
  yesAnswers.contains s || s == "no" || s == "stop"

/-- The `while True` prompt of `ManualStatsDocumentFilter.filter`: keep
consuming answers until one lowers to a recognized token. -/
def msfPrompt (yesAnswers : List String) : List String → Option (String × List String)
  | [] => none
  | ans :: rest =>
    if msfRecognized yesAnswers (lowerStr ans) then some (lowerStr ans, rest)
    else msfPrompt yesAnswers rest

/-- `ManualStatsDocumentFilter.filter`: for each uncached id, prompt until a
recognized token; on `'stop'` return at once without touching the cache,
otherwise store whether the token is a configured yes-answer and yield the
pair when its cache entry is true.  (The running per-label counter and the
literal-answer map are write-only diagnostics and are not modelled.) -/
def msfRun {α : Type} (yesAnswers : List String) :
    List (Nat × Bool) → List String → List (Nat × α) →
      Option (List (Nat × α) × List (Nat × Bool) × List String)
  | cache, answers, [] => some ([], cache, answers)
  | cache, answers, (docid, d) :: rest =>
    match lookupCache docid cache with
    | some b => prependIf b (docid, d) (msfRun yesAnswers cache answers rest)
    | none =>
      match msfPrompt yesAnswers answers with
      | none => none
      | some (tok, restAns) =>
        if tok == "stop" then some ([], cache, restAns)
        else
          let b := yesAnswers.contains tok
          prependIf b (docid, d) (msfRun yesAnswers ((docid, b) :: cache) restAns rest)

/-! ### KeywordsDocumentFilter (document_filters.py)

`__init__` stores `self.keywords = (re.compile(keyword, re.IGNORECASE) for
keyword in keywords)` — a generator, not a list.  The generator is shared
across every `any(...)` evaluation in `filter`, so patterns are consumed as
they are tried: a successful `any` leaves the patterns after the matching
one, an unsuccessful `any` exhausts the generator for good.  The model
threads the list of remaining patterns through the run; a keyword pattern is
an opaque text predicate, a document is its list of part texts. -/

/-- One inner `any(keyword.search(part.text) for keyword in self.keywords)`:
try the remaining patterns in order on one part's text, consuming each tried
pattern (the matching one included). -/
def kwScanPats (t : String) : List (String → Bool) → Bool × List (String → Bool)
  | [] => (false, [])
  | p :: ps => if p t then (true, ps) else kwScanPats t ps

/-- The outer `any(... for part in doc.parts.values())`: try the parts in
order, threading the shared pattern generator. -/
def kwScanParts : List String → List (String → Bool) → Bool × List (String → Bool)
  | [], ps => (false, ps)
  | t :: ts, ps =>
    match kwScanPats t ps with
    | (true, ps2) => (true, ps2)
    | (false, ps2) => kwScanParts ts ps2

/-- `KeywordsDocumentFilter.filter`: yield a document when the shared
generator still produces a matching pattern for one of its parts. -/
def keywordsFilter :
    List (String → Bool) → List (Nat × List String) → List (Nat × List String)
  | _, [] => []
  | ps, d :: ds =>
    match kwScanParts d.2 ps with
    | (true, ps2) => d :: keywordsFilter ps2 ds
    | (false, ps2) => keywordsFilter ps2 ds

/-! ### HighRecallRegexDocumentFilter (document_filters.py)

A document is its ordered list of parts — each the raw part text plus the
sentence list produced by the external splitter — together with the
predicted annotations that the delegated nala model produced for the
document's deep copy (the external `crf.tag` collaborator).  A regex
pattern is abstracted to its `search` behaviour on the normalized sentence:
the first match's span, if any. -/

/-- A predicted annotation of the delegated model: document-space span,
subclass tag and confidence. -/
structure NPred where
  offset : Nat
  length : Nat
  subclass : Int
  confidence : Rat
deriving DecidableEq

/-- One document part: raw text and the sentence list (`part.sentences_`). -/
structure DocPart where
  text : String
  sentences : List String
deriving DecidableEq

/-- A document as the regex-evidence filter sees it. -/
structure HDoc where
  parts : List DocPart
  nalaPreds : List NPred
deriving DecidableEq

/-- `reg.search(new_text)` abstracted: the span of the first match in the
normalized sentence, if any. -/
abbrev Pattern := String → Option (Nat × Nat)

/-- The punctuation class of `re.sub('[\./\\-(){}\[\],%]', ' ', new_text)`
(the two brace characters written by code point). -/
def punctList : List Char :=
  ['.', '/', '\\', '-', '(', ')', '[', ']', ',', '%'] ++ [Char.ofNat 123, Char.ofNat 125]

/-- `new_text = sent.lower()` followed by replacing each punctuation-class
character with a space (character-wise, so lengths are preserved). -/
def normalize (s : String) : String :=
  String.mk (s.data.map (fun c =>
    if punctList.contains (Char.toLower c) then ' ' else Char.toLower c))

/-- The mutable state of one document's scan: the positive-sentence counter,
the number of early corroboration yields so far and the absolute spans
computed for the matches, in scan order. -/
structure ScanSt where
  positives : Nat
  early : Nat
  spans : List (Nat × Nat)
deriving DecidableEq

/-- Modelled from the spec: nalaf's `Document.overlaps_with_mention(start,
end, annotated=False)` — the first predicted annotation whose span overlaps
the queried span, if any (external collaborator, not under src/). -/
def overlapsWithMention (preds : List NPred) (s e : Nat) : Option NPred :=
  preds.find? (fun a => decide (a.offset ≤ e ∧ s ≤ a.offset + a.length))

/-- The early-accept test on one match span: the model flagged an
overlapping mention with `subclass > 0` and `confidence <= threshold`. -/
def corroborated (thr : Rat) (preds : List NPred) (s e : Nat) : Bool :=
  match overlapsWithMention preds s e with
  | some a => decide (0 < a.subclass) && decide (a.confidence ≤ thr)
  | none => false

/-- The inner `for i, reg in enumerate(self.patterns)` loop over one
sentence: on a match, record the absolute span, count the sentence positive
on its first match, and on a corroborated span yield the document early. -/
def patLoop (useNala : Bool) (thr : Rat) (preds : List NPred) (base : Nat)
    (ntext : String) : List Pattern → Bool → ScanSt → Bool × ScanSt
  | [], found, st => (found, st)
  | p :: ps, found, st =>
    match p ntext with
    | none => patLoop useNala thr preds base ntext ps found st
    | some m =>
      let st1 : ScanSt := { st with spans := st.spans ++ [(base + m.1, base + m.2)] }
      let fs : Bool × ScanSt :=
        if found then (found, st1)
        else (true, { st1 with positives := st1.positives + 1 })
      let st3 : ScanSt :=
        if useNala && corroborated thr preds (base + m.1) (base + m.2) then
          { fs.2 with early := fs.2.early + 1 }
        else fs.2
      patLoop useNala thr preds base ntext ps fs.1 st3

/-- The `for sent in sentences` loop of one part: scan each sentence at
offset `part_offset + sent_offset`, advance `sent_offset` by `2 +
sent_length`, and count the sentence again after its scan when it was found
positive. -/
def sentLoop (useNala : Bool) (thr : Rat) (preds : List NPred) (pats : List Pattern)
    (partOffset : Nat) : List String → Nat → ScanSt → Nat × ScanSt
  | [], sentOffset, st => (sentOffset, st)
  | sent :: rest, sentOffset, st =>
    let r := patLoop useNala thr preds (partOffset + sentOffset) (normalize sent) pats false st
    let st2 : ScanSt := if r.1 then { r.2 with positives := r.2.positives + 1 } else r.2
    sentLoop useNala thr preds pats partOffset rest (sentOffset + 2 + sent.length) st2

/-- The `for i, x in enumerate(doc.parts)` loop: after each part,
`part_offset += sent_offset`. -/
def partLoop (useNala : Bool) (thr : Rat) (preds : List NPred) (pats : List Pattern) :
    List DocPart → Nat → ScanSt → ScanSt
  | [], _, st => st
  | part :: rest, partOffset, st =>
    let r := sentLoop useNala thr preds pats partOffset part.sentences 0 st
    partLoop useNala thr preds pats rest (partOffset + r.1) r.2

/-- One document's scan, starting from zero counters and offsets. -/
def scanDoc (pats : List Pattern) (useNala : Bool) (thr : Rat) (d : HDoc) : ScanSt :=
  partLoop useNala thr d.nalaPreds pats d.parts 0 ⟨0, 0, []⟩

/-- The weight the corroboration pass adds for one bound `nala_doc`:
`positive_sentences += min_found` for every predicted annotation with
`subclass > 0` of that document copy. -/
def nalaPredWeight (minFound : Nat) (preds : List NPred) : Nat :=
  (preds.filter (fun a => decide (0 < a.subclass))).length * minFound

/-- `HighRecallRegexDocumentFilter.filter` over a finite input prefix.  The
`nala_doc` local of the generator persists across the document loop and is
assigned only under `if match:`, so it is threaded here as an
`Option (List NPred)`: `none` while still unbound, `some preds` once a
matched document bound it to its tagged copy.  For a `use_nala` document
the corroboration pass reads whatever is currently bound: the current
document's copy when the document has at least one match, otherwise the
last previously matched document's copy — and when nothing was ever bound
the pass raises `UnboundLocalError`, which kills the generator: the run
returns the pairs yielded so far and the flag `false`. -/
def hrrRun (pats : List Pattern) (minFound : Nat) (useNala : Bool) (thr : Rat) :
    Option (List NPred) → List (Nat × HDoc) → List (Nat × HDoc) × Bool
  | _, [] => ([], true)
  | nalaDoc, (pmid, d) :: rest =>
    let st := scanDoc pats useNala thr d
    let nd2 := if st.spans.isEmpty then nalaDoc else some d.nalaPreds
    if useNala then
      match nd2 with
      | none => (List.replicate st.early (pmid, d), false)
      | some preds =>
        let r := hrrRun pats minFound useNala thr nd2 rest
        (List.replicate st.early (pmid, d) ++
          (if minFound ≤ st.positives + nalaPredWeight minFound preds
           then [(pmid, d)] else []) ++ r.1,
         r.2)
    else
      let r := hrrRun pats minFound useNala thr nd2 rest
      (List.replicate st.early (pmid, d) ++
        (if minFound ≤ st.positives then [(pmid, d)] else []) ++ r.1,
       r.2)

/-- `QuickNalaFilter.filter`: yield the document iff the delegated model
predicts some annotation with `subclass != 0` and `confidence <=
threshold` for it (`any(total_nl_mentions)` over the non-empty mention
tuples). -/
def quickNalaFilter (threshold : Rat) : List (Nat × HDoc) → List (Nat × HDoc)
  | [] => []
  | (pmid, d) :: rest =>
    if (d.nalaPreds.filter (fun a =>
          decide (a.subclass ≠ 0) && decide (a.confidence ≤ threshold))).isEmpty
    then quickNalaFilter threshold rest
    else (pmid, d) :: quickNalaFilter threshold rest

/-- `StubDocumentFilter.filter`: yield every pair. -/
def stubFilter {α : Type} : List α → List α
  | [] => []
  | x :: xs => x :: stubFilter xs

/-- The matches of all patterns on one sentence (in pattern order). -/
def sentMatches (pats : List Pattern) (s : String) : List (Nat × Nat) :=
  pats.filterMap (fun p => p (normalize s))

/-- The number of sentences of the document in which at least one pattern
matches — the per-sentence count the specification describes. -/
def specPositiveSentences (pats : List Pattern) (d : HDoc) : Nat :=
  ((d.parts.flatMap (fun p => p.sentences)).filter
    (fun s => !(sentMatches pats s).isEmpty)).length

/-- The span a sentence consumes in the offset bookkeeping: its length plus
the fixed 2-character separator allowance. -/
def sentenceSpan (s : String) : Nat := s.length + 2

/-- The spans the specification predicts for one part's sentences: each
match's local span shifted by `part_offset + sent_offset`, with
`sent_offset` the sum of the spans of the preceding sentences. -/
def specSentSpans (pats : List Pattern) (pOff : Nat) :
    List String → Nat → List (Nat × Nat)
  | [], _ => []
  | s :: rest, sOff =>
    (sentMatches pats s).map (fun m => (pOff + sOff + m.1, pOff + sOff + m.2)) ++
      specSentSpans pats pOff rest (sOff + sentenceSpan s)

/-- The cumulative span consumed by one part's sentences. -/
def partSpan (p : DocPart) : Nat := (p.sentences.map sentenceSpan).sum

/-- The spans the specification predicts for the whole document:
`part_offset` advances by the cumulative span consumed by the prior parts'
sentences. -/
def specDocSpans (pats : List Pattern) : List DocPart → Nat → List (Nat × Nat)
  | [], _ => []
  | p :: rest, pOff =>
    specSentSpans pats pOff p.sentences 0 ++ specDocSpans pats rest (pOff + partSpan p)

/-- Python's `text[a:b]` on the raw part text, for checking what a computed
span indexes. -/
def stringSlice (s : String) (a b : Nat) : String :=
  String.mk ((s.data.drop a).take (b - a))

/-! ### Cross-validation aggregation (iteration.py, `Iteration.cross_validation`)

The aggregation tail after the per-fold loop, as a pure function of the
per-fold ledgers.  Metric rows are rational tuples `(tp, fp, fn,
fp_overlap, fn_overlap, precision, recall, f1)`. -/

/-- `zip(*rows)`: the columns of the per-fold rows, truncated to the
shortest row, each column holding one entry per fold. -/
def colsOf : List (List Rat) → List (List Rat)
  | [] => []
  | [r] => r.map (fun x => [x])
  | r :: rest => List.zipWith (fun x col => x :: col) r (colsOf rest)

/-- `[sum(col) for col in zip(*rows)]` over per-fold metric rows. -/
def sumCols (rows : List (List Rat)) : List Rat :=
  (colsOf rows).map (fun col => col.foldl (fun a b => a + b) 0)

/-- `[sum(col)/len(col) for col in zip(*rows)]`. -/
def avgCols (rows : List (List Rat)) : List Rat :=
  (colsOf rows).map (fun col => (col.foldl (fun a b => a + b) 0) / (col.length : Rat))

/-- One aggregate row of `cross_validation.csv`. -/
structure CvRow where
  tag : String
  strictness : String
  subclass : String
  values : List Rat
deriving DecidableEq

/-- The rows `Iteration.cross_validation` writes after the per-fold loop, in
source order.  `calcE` / `calcO` stand for the external
`MentionLevelEvaluator(strictness='exact'/'overlapping').calc_measures`,
applied to the first five summed counts; `subExact` / `subOver` are the
per-subclass per-fold rows collected in `subclass_averages_exact` /
`subclass_averages_overlapping`, and `foldsExact` / `foldsOver` the
per-fold aggregate rows `folds_results_exact` / `folds_results_overlapping`.
The `sum_of_folds`/`overlapping` rows are computed from the *exact*
collections, exactly as in the source. -/
def cvAggregateRows (calcE calcO : List Rat → List Rat)
    (subExact subOver : List (Nat × List (List Rat)))
    (foldsExact foldsOver : List (List Rat)) : List CvRow :=
  (subExact.map (fun q => ⟨"average", "exact", toString q.1, avgCols q.2⟩))
  ++ [⟨"average", "exact", "total", avgCols foldsExact⟩]
  ++ (subOver.map (fun q => ⟨"average", "overlapping", toString q.1, avgCols q.2⟩))
  ++ [⟨"average", "overlapping", "total", avgCols foldsOver⟩]
  ++ (subExact.map (fun q =>
        ⟨"sum_of_folds", "exact", toString q.1, calcE ((sumCols q.2).take 5)⟩))
  ++ [⟨"sum_of_folds", "exact", "total", calcE ((sumCols foldsExact).take 5)⟩]
  ++ (subExact.map (fun q =>
        ⟨"sum_of_folds", "overlapping", toString q.1, calcO ((sumCols q.2).take 5)⟩))
  ++ [⟨"sum_of_folds", "overlapping", "total", calcO ((sumCols foldsExact).take 5)⟩]

/-! ### Lemmas and claim theorems -/

theorem foldlMax_const (l : List Int) (c : Int) (h : ∀ x ∈ l, x ≤ c) :
    l.foldl (fun acc n => if n > acc then n else acc) c = c := by
  induction l with
  | nil => rfl
  | cons a t ih =>
    have ha : a ≤ c := h a (List.mem_cons_self a t)
    have : (if a > c then a else c) = c := by
      have : ¬ a > c := not_lt.mpr ha
      simp [this]
    simp only [List.foldl_cons, this]
    exact ih (fun x hx => h x (List.mem_cons_of_mem a hx))

theorem foldlMax_eq (l : List Int) (M : Int) (hM : M ∈ l)
    (hub : ∀ x ∈ l, x ≤ M) :
    ∀ init : Int, init ≤ M →
      l.foldl (fun acc n => if n > acc then n else acc) init = M := by
  induction l with
  | nil => intro init _; exact absurd hM (List.not_mem_nil M)
  | cons a t ih =>
    intro init hinit
    by_cases hMt : M ∈ t
    · have ha : a ≤ M := hub a (List.mem_cons_self a t)
      have hubt : ∀ x ∈ t, x ≤ M := fun x hx => hub x (List.mem_cons_of_mem a hx)
      have hstep : (if a > init then a else init) ≤ M := by
        by_cases hai : a > init
        · simpa [hai] using ha
        · simpa [hai] using hinit
      simpa using ih hMt hubt _ hstep
    · have haM : a = M := by
        rcases List.mem_cons.mp hM with h | h
        · exact h.symm
        · exact absurd h hMt
      subst haM
      have hstep : (if a > init then a else init) = a := by
        by_cases hai : a > init
        · simp [hai]
        · have : init = a := le_antisymm hinit (not_lt.mp hai)
          simp [this]
      have hubt : ∀ x ∈ t, x ≤ a := fun x hx => hub x (List.mem_cons_of_mem a hx)
      simp only [List.foldl_cons, hstep]
      exact foldlMax_const t a hubt

theorem maxFound_eq (found : List Int) (M : Int) (hM : M ∈ found)
    (hub : ∀ x ∈ found, x ≤ M) (h0 : 0 ≤ M) : maxFound found = M :=
  foldlMax_eq found M hM hub (-1) (by omega)

/-- C1: constructed without an explicit iteration number, the iteration
number is the highest existing ordinal, advanced by one exactly when that
ordinal's directory has both a `candidates` and a `reviewed` subdirectory,
and a resulting 0 is further advanced to 1; the working directory created is
`iteration_<that number>` (so `iteration_3/candidates` without
`iteration_3/reviewed` resumes at 3 and does not create `iteration_4`). -/
theorem iteration_number_resume (found : List Int) (hc hr : Int → Bool) (M : Int)
    (hM : M ∈ found) (hub : ∀ x ∈ found, x ≤ M) (h0 : 0 ≤ M) :
    iterationNumber found hc hr =
      (let n := if hc M && hr M then M + 1 else M
       if n = 0 then 1 else n) ∧
    currentFolderName (iterationNumber found hc hr) =
      "iteration_" ++ toString (let n := if hc M && hr M then M + 1 else M
                                if n = 0 then 1 else n) := by
  have hmax : maxFound found = M := maxFound_eq found M hM hub h0
  constructor
  · unfold iterationNumber
    rw [hmax]
    by_cases h1 : (hc M && hr M) = true
    · simp only [h1, if_true]
      by_cases h2 : M + 1 = 0
      · simp [h2]
      · simp [h2]
    · have h1f : (hc M && hr M) = false := by
        cases hv : (hc M && hr M) with
        | true => exact absurd hv h1
        | false => rfl
      simp only [h1f, Bool.false_eq_true, if_false]
      by_cases h2 : M = 0
      · simp [h2]
      · simp [h2]
  · unfold iterationNumber
    rw [hmax]
    by_cases h1 : (hc M && hr M) = true
    · simp only [h1, if_true]
      by_cases h2 : M + 1 = 0
      · simp [h2, currentFolderName]
      · simp [h2, currentFolderName]
    · have h1f : (hc M && hr M) = false := by
        cases hv : (hc M && hr M) with
        | true => exact absurd hv h1
        | false => rfl
      simp only [h1f, Bool.false_eq_true, if_false]
      by_cases h2 : M = 0
      · simp [h2, currentFolderName]
      · simp [h2, currentFolderName]

theorem iteration_number_resume_witness :
    ((3 : Int) ∈ [(1 : Int), 2, 3] ∧ (∀ x ∈ [(1 : Int), 2, 3], x ≤ 3) ∧ (0 : Int) ≤ 3) ∧
    iterationNumber [1, 2, 3] (fun n => decide (n = 3)) (fun _ => false) = 3 ∧
    currentFolderName (iterationNumber [1, 2, 3] (fun n => decide (n = 3)) (fun _ => false)) =
      "iteration_3" := by
  have h := iteration_number_resume [1, 2, 3] (fun n => decide (n = 3)) (fun _ => false) 3
    (by decide) (by decide) (by decide)
  refine ⟨⟨by decide, by decide, by decide⟩, ?_, ?_⟩
  · rw [h.1]; decide
  · rw [h.2]; decide

/-- C10: with no `iteration_*` directory present (and hence no
`candidates`/`reviewed` subdirectory for ordinal -1), the iteration number
stays at its initial value -1 and the constructor's working directory is
named `iteration_-1`, not `iteration_1`. -/
theorem iteration_number_empty (hc hr : Int → Bool)
    (h : hc (-1) = false ∨ hr (-1) = false) :
    iterationNumber [] hc hr = -1 ∧
    currentFolderName (iterationNumber [] hc hr) = "iteration_-1" := by
  have hfalse : (hc (-1) && hr (-1)) = false := by
    rcases h with h | h <;> simp [h]
  have hnum : iterationNumber [] hc hr = -1 := by
    unfold iterationNumber maxFound
    simp [hfalse]
  exact ⟨hnum, by rw [hnum]; decide⟩

theorem iteration_number_empty_witness :
    ((fun _ : Int => false) (-1) = false ∨ (fun _ : Int => false) (-1) = false) ∧
    iterationNumber [] (fun _ => false) (fun _ => false) = -1 ∧
    currentFolderName (iterationNumber [] (fun _ => false) (fun _ => false)) = "iteration_-1" := by
  have h := iteration_number_empty (fun _ => false) (fun _ => false) (Or.inl rfl)
  exact ⟨Or.inl rfl, h.1, h.2⟩

theorem matchLoop_spec (eq : Ent → Ent → Bool) (qs : List (Ent × Ent)) :
    ∀ (res : List (Ent × Ent)) (nfa nfp : List Ent),
      matchLoop eq qs res nfa nfp =
        (res ++ qs.filter (fun q => eq q.1 q.2),
         (qs.filter (fun q => eq q.1 q.2)).foldl (fun l q => removeFirst eq q.1 l) nfa,
         (qs.filter (fun q => eq q.1 q.2)).foldl (fun l q => removeFirst eq q.2 l) nfp) := by
  induction qs with
  | nil => intro res nfa nfp; simp [matchLoop]
  | cons q rest ih =>
    intro res nfa nfp
    by_cases hq : eq q.1 q.2
    · simp only [matchLoop, hq, if_true]
      rw [ih]
      simp [List.filter_cons, hq]
    · have hqf : eq q.1 q.2 = false := by
        cases hv : eq q.1 q.2 with
        | true => exact absurd hv hq
        | false => rfl
      simp only [matchLoop, hqf, Bool.false_eq_true, if_false]
      rw [ih]
      simp [List.filter_cons, hqf]

/-- C4 (amended): the loop records every equality hit of the cartesian
product — so one gold annotation can be recorded with several predictions
(and vice versa); the not-found pools drop their first equal element at each
hit, and after the product every remaining not-found gold is recorded with
the sentinel empty prediction and every remaining not-found prediction with
the sentinel empty gold. -/
theorem evaluation_matching_amended (eq : Ent → Ent → Bool) (golds preds : List Ent) :
    evalPartResults eq golds preds =
      (pairsOf golds preds).filter (fun q => eq q.1 q.2) ++
      (((pairsOf golds preds).filter (fun q => eq q.1 q.2)).foldl
          (fun l q => removeFirst eq q.1 l) golds).map (fun a => (a, sentinelEnt)) ++
      (((pairsOf golds preds).filter (fun q => eq q.1 q.2)).foldl
          (fun l q => removeFirst eq q.2 l) preds).map (fun p => (sentinelEnt, p)) := by
  unfold evalPartResults
  rw [matchLoop_spec]
  simp

/-- C4 counterexample: with the exact-or-overlapping equality, a gold
annotation spanning offsets 0-10 is recorded against both of the predictions
spanning 0-5 and 5-10, so the recorded results pair one gold annotation with
two predictions, contrary to the claim's at-most-one pairing. -/
theorem evaluation_matching_counterexample :
    ((evalPartResults eqExactOrOverlapping
        [⟨"e_2", 0, "ABCDEFGHIJ"⟩]
        [⟨"e_2", 0, "ABCDE"⟩, ⟨"e_2", 5, "FGHIJ"⟩]).filter
      (fun q => decide (q.1 = (⟨"e_2", 0, "ABCDEFGHIJ"⟩ : Ent)))).length = 2 := by
  decide

theorem prependIf_eq_some {α : Type} (b : Bool) (p : Nat × α)
    (r : Option (List (Nat × α) × List (Nat × Bool) × List String))
    (out : List (Nat × α)) (c : List (Nat × Bool)) (rem : List String)
    (h : prependIf b p r = some (out, c, rem)) :
    ∃ o2, r = some (o2, c, rem) ∧ out = (if b then [p] else []) ++ o2 := by
  cases r with
  | none => exact absurd h (by simp [prependIf])
  | some x =>
    obtain ⟨o2, c2, r2⟩ := x
    refine ⟨o2, ?_, ?_⟩
    · have h2 := Option.some.inj h
      have hc : c2 = c := congrArg (fun y => y.2.1) h2
      have hr : r2 = rem := congrArg (fun y => y.2.2) h2
      rw [hc, hr]
    · have h2 := Option.some.inj h
      exact (congrArg (fun y => y.1) h2).symm

theorem mdfRun_preserves_cache {α : Type} (pmid : Nat) (b : Bool) :
    ∀ (docs : List (Nat × α)) (cache : List (Nat × Bool)) (answers : List String)
      (out : List (Nat × α)) (c2 : List (Nat × Bool)) (r2 : List String),
      lookupCache pmid cache = some b →
      mdfRun cache answers docs = some (out, c2, r2) →
      lookupCache pmid c2 = some b := by
  intro docs
  induction docs with
  | nil =>
    intro cache answers out c2 r2 hl hrun
    simp only [mdfRun] at hrun
    have hc : cache = c2 := congrArg (fun y => y.2.1) (Option.some.inj hrun)
    rw [← hc]; exact hl
  | cons q rest ih =>
    intro cache answers out c2 r2 hl hrun
    obtain ⟨qid, qd⟩ := q
    simp only [mdfRun] at hrun
    cases hq : lookupCache qid cache with
    | some qb =>
      rw [hq] at hrun
      obtain ⟨o2, hrec, _⟩ := prependIf_eq_some _ _ _ _ _ _ hrun
      exact ih cache answers o2 c2 r2 hl hrec
    | none =>
      rw [hq] at hrun
      have hne : qid ≠ pmid := by
        intro hEq; rw [hEq] at hq; rw [hq] at hl; exact absurd hl (by simp)
      have hl2 : ∀ v : Bool, lookupCache pmid ((qid, v) :: cache) = some b := by
        intro v; simp only [lookupCache, if_neg hne]; exact hl
      cases answers with
      | nil => exact absurd hrun (by simp)
      | cons ans restAns =>
        simp only at hrun
        by_cases hs : (lowerStr ans == "s") = true
        · rw [if_pos hs] at hrun
          have hc : (qid, isYes (lowerStr ans)) :: cache = c2 :=
            congrArg (fun y => y.2.1) (Option.some.inj hrun)
          rw [← hc]; exact hl2 _
        · rw [if_neg hs] at hrun
          obtain ⟨o2, hrec, _⟩ := prependIf_eq_some _ _ _ _ _ _ hrun
          exact ih _ restAns o2 c2 r2 (hl2 _) hrec

/-- C8 (amended): only `ManualStatsDocumentFilter` re-prompts — a prefix of
unrecognized console answers is consumed without any effect, so its run
equals the run on the remaining answers and no decision is recorded for the
malformed tokens; `ManualDocumentFilter`, by contrast, records a decision
from whatever single answer it gets: the cache entry for the document
becomes true exactly when the answer lowers to `'yes'` or `'y'`, so a
malformed answer is recorded as a rejection rather than re-prompted. -/
theorem manual_prompt_amended {α : Type} :
    (∀ (yesAnswers : List String) (cache : List (Nat × Bool)) (junk rest : List String)
       (pmid : Nat) (d : α) (ds : List (Nat × α)),
       lookupCache pmid cache = none →
       (∀ j ∈ junk, msfRecognized yesAnswers (lowerStr j) = false) →
       msfRun yesAnswers cache (junk ++ rest) ((pmid, d) :: ds) =
         msfRun yesAnswers cache rest ((pmid, d) :: ds)) ∧
    (∀ (cache : List (Nat × Bool)) (ans : String) (restAns : List String)
       (pmid : Nat) (d : α) (ds : List (Nat × α))
       (out : List (Nat × α)) (c2 : List (Nat × Bool)) (r2 : List String),
       lookupCache pmid cache = none →
       mdfRun cache (ans :: restAns) ((pmid, d) :: ds) = some (out, c2, r2) →
       lookupCache pmid c2 = some (isYes (lowerStr ans))) := by
  constructor
  · intro yesAnswers cache junk rest pmid d ds hl hjunk
    have hskip : msfPrompt yesAnswers (junk ++ rest) = msfPrompt yesAnswers rest := by
      induction junk with
      | nil => rfl
      | cons j js ihj =>
        have hj : msfRecognized yesAnswers (lowerStr j) = false :=
          hjunk j (List.mem_cons_self j js)
        simp only [List.cons_append, msfPrompt, hj, Bool.false_eq_true, if_false]
        exact ihj (fun x hx => hjunk x (List.mem_cons_of_mem j hx))
    simp only [msfRun, hl, hskip]
  · intro cache ans restAns pmid d ds out c2 r2 hl hrun
    simp only [mdfRun, hl] at hrun
    by_cases hs : (lowerStr ans == "s") = true
    · rw [if_pos hs] at hrun
      have hc : (pmid, isYes (lowerStr ans)) :: cache = c2 :=
        congrArg (fun y => y.2.1) (Option.some.inj hrun)
      rw [← hc]
      simp [lookupCache]
    · rw [if_neg hs] at hrun
      obtain ⟨o2, hrec, _⟩ := prependIf_eq_some _ _ _ _ _ _ hrun
      exact mdfRun_preserves_cache pmid (isYes (lowerStr ans)) ds _ restAns o2 c2 r2
        (by simp [lookupCache]) hrec

theorem manual_prompt_amended_witness :
    (lookupCache 1 ([] : List (Nat × Bool)) = none ∧
      (∀ j ∈ ["zz"], msfRecognized ["ok"] (lowerStr j) = false)) ∧
    msfRun (α := Unit) ["ok"] [] (["zz"] ++ ["ok"]) [(1, ())] =
      msfRun ["ok"] [] ["ok"] [(1, ())] ∧
    mdfRun (α := Unit) [] ["xyz"] [(2, ())] = some ([], [(2, false)], []) ∧
    lookupCache 2 [(2, false)] = some (isYes (lowerStr "xyz")) := by
  have h1 := (manual_prompt_amended (α := Unit)).1 ["ok"] [] ["zz"] ["ok"] 1 () []
    (by decide) (by decide)
  have hrun : mdfRun (α := Unit) [] ["xyz"] [(2, ())] = some ([], [(2, false)], []) := by
    decide
  have h2 := (manual_prompt_amended (α := Unit)).2 [] "xyz" [] 2 () [] [] [(2, false)] []
    (by decide) hrun
  exact ⟨⟨by decide, by decide⟩, h1, hrun, h2⟩

/-- C8 counterexample: `ManualDocumentFilter` given the unrecognized answer
`"xyz"` for an uncached document does not re-prompt; it records the reject
decision `false` in the cache and moves on (the follow-up answer stays
unconsumed), contrary to the claim that no decision is recorded on
malformed input. -/
theorem manual_reprompt_counterexample :
    mdfRun (α := Unit) [] ["xyz", "yes"] [(1, ())] = some ([], [(1, false)], ["yes"]) := by
  decide

/-- C9: answering `'s'` to `ManualDocumentFilter` for an uncached document
stores the reject decision `false` for that id before the sequence
terminates (nothing is yielded and no later document is pulled); any later
run with that cache rejects the document without consulting the console;
`ManualStatsDocumentFilter` instead returns on `'stop'` with the cache
unchanged. -/
theorem manual_stop_caches_reject {α : Type} (cache : List (Nat × Bool))
    (answers : List String) (pmid : Nat) (d : α) (ds : List (Nat × α))
    (yesAnswers : List String) (a3 : List String) (ds3 : List (Nat × α))
    (hl : lookupCache pmid cache = none) :
    mdfRun cache ("s" :: answers) ((pmid, d) :: ds) =
      some ([], (pmid, false) :: cache, answers) ∧
    (∀ (as2 : List String) (ds2 : List (Nat × α)),
       mdfRun ((pmid, false) :: cache) as2 ((pmid, d) :: ds2) =
         mdfRun ((pmid, false) :: cache) as2 ds2) ∧
    msfRun yesAnswers cache ("stop" :: a3) ((pmid, d) :: ds3) =
      some ([], cache, a3) := by
  have hlow : lowerStr "s" = "s" := by decide
  have hstop : lowerStr "stop" = "stop" := by decide
  refine ⟨?_, ?_, ?_⟩
  · simp [mdfRun, hl, hlow, isYes]
  · intro as2 ds2
    have hl2 : lookupCache pmid ((pmid, false) :: cache) = some false := by
      simp [lookupCache]
    simp only [mdfRun, hl2]
    cases hrec : mdfRun ((pmid, false) :: cache) as2 ds2 with
    | none => rfl
    | some r => obtain ⟨o3, c3, r3⟩ := r; simp [prependIf]
  · simp [msfRun, hl, msfPrompt, msfRecognized, hstop]

theorem manual_stop_caches_reject_witness :
    lookupCache 7 ([] : List (Nat × Bool)) = none ∧
    mdfRun (α := Unit) [] ["s", "yes"] [(7, ()), (8, ())] =
      some ([], [(7, false)], ["yes"]) ∧
    mdfRun (α := Unit) [(7, false)] ["y"] [(7, ())] = mdfRun [(7, false)] ["y"] [] ∧
    msfRun (α := Unit) ["ok"] [] ["stop"] [(7, ())] = some ([], [], []) := by
  have h := manual_stop_caches_reject (α := Unit) [] ["yes"] 7 () [(8, ())]
    ["ok"] [] [] (by decide)
  exact ⟨by decide, h.1, h.2.1 ["y"] [], h.2.2⟩

/-- C7: `KeywordsDocumentFilter` is stateful across documents because its
compiled patterns live in a generator.  With a single keyword matching
"mutation", the first of two identical matching documents is yielded and
exhausts the generator, so the second is rejected — although the same
document alone is accepted.  This contradicts the claim that the decision
is a pure per-document function of the text. -/
theorem keywords_filter_stateful :
    keywordsFilter [fun t => t == "mutation"] [(1, ["mutation"]), (2, ["mutation"])] =
      [(1, ["mutation"])] ∧
    keywordsFilter [fun t => t == "mutation"] [(2, ["mutation"])] = [(2, ["mutation"])] := by
  constructor <;> rfl

theorem patLoop_fst (useNala : Bool) (thr : Rat) (preds : List NPred) (base : Nat)
    (ntext : String) :
    ∀ (ps : List Pattern) (found : Bool) (st : ScanSt),
      (patLoop useNala thr preds base ntext ps found st).1 =
        (found || !((ps.filterMap (fun p => p ntext)).isEmpty)) := by
  intro ps
  induction ps with
  | nil => intro found st; simp [patLoop]
  | cons p ps ih =>
    intro found st
    cases hp : p ntext with
    | none =>
      simp only [patLoop, hp, List.filterMap_cons]
      exact ih found st
    | some m =>
      simp only [patLoop, hp, List.filterMap_cons]
      cases found with
      | false => simp [ih]
      | true => simp [ih]

theorem patLoop_positives (useNala : Bool) (thr : Rat) (preds : List NPred) (base : Nat)
    (ntext : String) :
    ∀ (ps : List Pattern) (found : Bool) (st : ScanSt),
      (patLoop useNala thr preds base ntext ps found st).2.positives =
        st.positives +
          (if found then 0
           else if (ps.filterMap (fun p => p ntext)).isEmpty then 0 else 1) := by
  intro ps
  induction ps with
  | nil => intro found st; simp [patLoop]
  | cons p ps ih =>
    intro found st
    cases hp : p ntext with
    | none =>
      simp only [patLoop, hp, List.filterMap_cons]
      exact ih found st
    | some m =>
      simp only [patLoop, hp, List.filterMap_cons]
      cases found with
      | false =>
        cases hcond : useNala && corroborated thr preds (base + m.1) (base + m.2) with
        | false => simp [hcond, ih]
        | true => simp [hcond, ih]
      | true =>
        cases hcond : useNala && corroborated thr preds (base + m.1) (base + m.2) with
        | false => simp [hcond, ih]
        | true => simp [hcond, ih]

theorem patLoop_early (useNala : Bool) (thr : Rat) (preds : List NPred) (base : Nat)
    (ntext : String) :
    ∀ (ps : List Pattern) (found : Bool) (st : ScanSt),
      (patLoop useNala thr preds base ntext ps found st).2.early =
        st.early +
          (if useNala then
            ((ps.filterMap (fun p => p ntext)).filter
              (fun m => corroborated thr preds (base + m.1) (base + m.2))).length
           else 0) := by
  intro ps
  induction ps with
  | nil => intro found st; simp [patLoop]
  | cons p ps ih =>
    intro found st
    cases hp : p ntext with
    | none =>
      simp only [patLoop, hp, List.filterMap_cons]
      exact ih found st
    | some m =>
      simp only [patLoop, hp, List.filterMap_cons]
      cases hu : useNala with
      | false =>
        simp only [hu] at ih
        cases found with
        | false => simp [ih]
        | true => simp [ih]
      | true =>
        simp only [hu] at ih
        have hfm : (m :: List.filterMap (fun p => p ntext) ps).filter
              (fun x => corroborated thr preds (base + x.1) (base + x.2)) =
            (if corroborated thr preds (base + m.1) (base + m.2) then [m] else []) ++
              (List.filterMap (fun p => p ntext) ps).filter
                (fun x => corroborated thr preds (base + x.1) (base + x.2)) := by
          rw [List.filter_cons]
          cases hcorr : corroborated thr preds (base + m.1) (base + m.2) <;> simp
        cases hcorr : corroborated thr preds (base + m.1) (base + m.2) with
        | false =>
          rw [hcorr] at hfm
          cases found with
          | false => simp [ih, hfm]
          | true => simp [ih, hfm]
        | true =>
          rw [hcorr] at hfm
          cases found with
          | false =>
            simp only [hcorr, Bool.true_and, if_true]
            rw [ih]
            simp [hfm]
            ring
          | true =>
            simp only [hcorr, Bool.true_and, if_true]
            rw [ih]
            simp [hfm]
            ring

theorem patLoop_spans (useNala : Bool) (thr : Rat) (preds : List NPred) (base : Nat)
    (ntext : String) :
    ∀ (ps : List Pattern) (found : Bool) (st : ScanSt),
      (patLoop useNala thr preds base ntext ps found st).2.spans =
        st.spans ++ (ps.filterMap (fun p => p ntext)).map
          (fun m => (base + m.1, base + m.2)) := by
  intro ps
  induction ps with
  | nil => intro found st; simp [patLoop]
  | cons p ps ih =>
    intro found st
    cases hp : p ntext with
    | none =>
      simp only [patLoop, hp, List.filterMap_cons]
      exact ih found st
    | some m =>
      simp only [patLoop, hp, List.filterMap_cons]
      cases found with
      | false =>
        cases hcond : useNala && corroborated thr preds (base + m.1) (base + m.2) with
        | false => simp [hcond, ih]
        | true => simp [hcond, ih]
      | true =>
        cases hcond : useNala && corroborated thr preds (base + m.1) (base + m.2) with
        | false => simp [hcond, ih]
        | true => simp [hcond, ih]

theorem sentLoop_fst (useNala : Bool) (thr : Rat) (preds : List NPred)
    (pats : List Pattern) (pOff : Nat) :
    ∀ (sents : List String) (sOff : Nat) (st : ScanSt),
      (sentLoop useNala thr preds pats pOff sents sOff st).1 =
        sOff + (sents.map sentenceSpan).sum := by
  intro sents
  induction sents with
  | nil => intro sOff st; simp [sentLoop]
  | cons s rest ih =>
    intro sOff st
    simp only [sentLoop]
    rw [ih]
    simp [sentenceSpan]
    ring

theorem sentLoop_positives (useNala : Bool) (thr : Rat) (preds : List NPred)
    (pats : List Pattern) (pOff : Nat) :
    ∀ (sents : List String) (sOff : Nat) (st : ScanSt),
      (sentLoop useNala thr preds pats pOff sents sOff st).2.positives =
        st.positives +
          2 * ((sents.filter (fun s => !(sentMatches pats s).isEmpty)).length) := by
  intro sents
  induction sents with
  | nil => intro sOff st; simp [sentLoop]
  | cons s rest ih =>
    intro sOff st
    simp only [sentLoop]
    rw [ih]
    have hf := patLoop_fst useNala thr preds (pOff + sOff) (normalize s) pats false st
    have hpos := patLoop_positives useNala thr preds (pOff + sOff) (normalize s) pats false st
    rw [Bool.false_or] at hf
    cases hm : (List.filterMap (fun p => p (normalize s)) pats).isEmpty with
    | true =>
      rw [hm] at hf hpos
      simp only [Bool.not_true] at hf
      rw [hf]
      simp only [Bool.false_eq_true, if_false, if_pos rfl] at hpos ⊢
      rw [List.filter_cons_of_neg (by simp [sentMatches, hm])]
      simp [hpos]
    | false =>
      rw [hm] at hf hpos
      simp only [Bool.not_false] at hf
      rw [hf]
      simp only [Bool.false_eq_true, if_false, if_true] at hpos ⊢
      rw [List.filter_cons_of_pos (by simp [sentMatches, hm])]
      simp [hpos]
      ring

theorem sentLoop_spans (useNala : Bool) (thr : Rat) (preds : List NPred)
    (pats : List Pattern) (pOff : Nat) :
    ∀ (sents : List String) (sOff : Nat) (st : ScanSt),
      (sentLoop useNala thr preds pats pOff sents sOff st).2.spans =
        st.spans ++ specSentSpans pats pOff sents sOff := by
  intro sents
  induction sents with
  | nil => intro sOff st; simp [sentLoop, specSentSpans]
  | cons s rest ih =>
    intro sOff st
    simp only [sentLoop]
    rw [ih]
    have hsp := patLoop_spans useNala thr preds (pOff + sOff) (normalize s) pats false st
    have hoff : sOff + 2 + s.length = sOff + sentenceSpan s := by
      simp [sentenceSpan]; ring
    have hst2 : ∀ r : Bool × ScanSt,
        (if r.1 then { r.2 with positives := r.2.positives + 1 } else r.2).spans =
          r.2.spans := by
      intro r; cases r.1 <;> simp
    rw [hst2, hsp, hoff]
    simp only [specSentSpans, sentMatches, List.append_assoc]

theorem partLoop_positives (useNala : Bool) (thr : Rat) (preds : List NPred)
    (pats : List Pattern) :
    ∀ (parts : List DocPart) (pOff : Nat) (st : ScanSt),
      (partLoop useNala thr preds pats parts pOff st).positives =
        st.positives +
          2 * (((parts.flatMap (fun p => p.sentences)).filter
            (fun s => !(sentMatches pats s).isEmpty)).length) := by
  intro parts
  induction parts with
  | nil => intro pOff st; simp [partLoop]
  | cons p rest ih =>
    intro pOff st
    simp only [partLoop]
    rw [ih, sentLoop_positives]
    simp [List.filter_append]
    ring

theorem partLoop_spans (useNala : Bool) (thr : Rat) (preds : List NPred)
    (pats : List Pattern) :
    ∀ (parts : List DocPart) (pOff : Nat) (st : ScanSt),
      (partLoop useNala thr preds pats parts pOff st).spans =
        st.spans ++ specDocSpans pats parts pOff := by
  intro parts
  induction parts with
  | nil => intro pOff st; simp [partLoop, specDocSpans]
  | cons p rest ih =>
    intro pOff st
    simp only [partLoop]
    rw [ih, sentLoop_spans, sentLoop_fst]
    simp only [specDocSpans, partSpan, Nat.zero_add, List.append_assoc]

theorem corroborated_src (thr : Rat) (preds : List NPred) (s e : Nat)
    (h : corroborated thr preds s e = true) :
    ∃ a ∈ preds, 0 < a.subclass ∧ a.confidence ≤ thr := by
  unfold corroborated at h
  cases hf : overlapsWithMention preds s e with
  | none => rw [hf] at h; exact absurd h (by simp)
  | some a =>
    rw [hf] at h
    have hmem : a ∈ preds :=
      List.mem_of_find?_eq_some (by simpa [overlapsWithMention] using hf)
    simp only [Bool.and_eq_true, decide_eq_true_eq] at h
    exact ⟨a, hmem, h.1, h.2⟩

theorem patLoop_early_src (useNala : Bool) (thr : Rat) (preds : List NPred) (base : Nat)
    (ntext : String) (ps : List Pattern) (found : Bool) (st : ScanSt)
    (h : (patLoop useNala thr preds base ntext ps found st).2.early ≠ st.early) :
    useNala = true ∧ ∃ a ∈ preds, 0 < a.subclass ∧ a.confidence ≤ thr := by
  rw [patLoop_early] at h
  cases hu : useNala with
  | false => rw [hu] at h; simp at h
  | true =>
    rw [hu] at h
    simp only [if_true] at h
    have hne : ((ps.filterMap (fun p => p ntext)).filter
        (fun m => corroborated thr preds (base + m.1) (base + m.2))) ≠ [] := by
      intro h0; rw [h0] at h; simp at h
    obtain ⟨m, hm⟩ := List.exists_mem_of_ne_nil _ hne
    have hc := (List.mem_filter.mp hm).2
    exact ⟨rfl, corroborated_src thr preds _ _ (by simpa using hc)⟩

theorem patLoop_early_const (useNala : Bool) (thr : Rat) (preds : List NPred)
    (base : Nat) (ntext : String) (ps : List Pattern) (found : Bool) (st : ScanSt)
    (hnc : ¬(useNala = true ∧ ∃ a ∈ preds, 0 < a.subclass ∧ a.confidence ≤ thr)) :
    (patLoop useNala thr preds base ntext ps found st).2.early = st.early := by
  rw [patLoop_early]
  cases hu : useNala with
  | false => simp
  | true =>
    have hnil : ((ps.filterMap (fun p => p ntext)).filter
        (fun m => corroborated thr preds (base + m.1) (base + m.2))) = [] := by
      by_contra hne
      obtain ⟨m, hm⟩ := List.exists_mem_of_ne_nil _ hne
      have hc := (List.mem_filter.mp hm).2
      exact hnc ⟨hu, corroborated_src thr preds _ _ (by simpa using hc)⟩
    simp [hnil]

theorem sentLoop_early_const (useNala : Bool) (thr : Rat) (preds : List NPred)
    (pats : List Pattern) (pOff : Nat)
    (hnc : ¬(useNala = true ∧ ∃ a ∈ preds, 0 < a.subclass ∧ a.confidence ≤ thr)) :
    ∀ (sents : List String) (sOff : Nat) (st : ScanSt),
      (sentLoop useNala thr preds pats pOff sents sOff st).2.early = st.early := by
  intro sents
  induction sents with
  | nil => intro sOff st; simp [sentLoop]
  | cons s rest ih =>
    intro sOff st
    simp only [sentLoop]
    rw [ih]
    cases hfnd : (patLoop useNala thr preds (pOff + sOff) (normalize s) pats false st).1 with
    | true =>
      simp only [if_pos rfl]
      exact patLoop_early_const useNala thr preds (pOff + sOff) (normalize s)
        pats false st hnc
    | false =>
      simp only [Bool.false_eq_true, if_false]
      exact patLoop_early_const useNala thr preds (pOff + sOff) (normalize s)
        pats false st hnc

theorem partLoop_early_const (useNala : Bool) (thr : Rat) (preds : List NPred)
    (pats : List Pattern)
    (hnc : ¬(useNala = true ∧ ∃ a ∈ preds, 0 < a.subclass ∧ a.confidence ≤ thr)) :
    ∀ (parts : List DocPart) (pOff : Nat) (st : ScanSt),
      (partLoop useNala thr preds pats parts pOff st).early = st.early := by
  intro parts
  induction parts with
  | nil => intro pOff st; simp [partLoop]
  | cons p rest ih =>
    intro pOff st
    simp only [partLoop]
    rw [ih]
    exact sentLoop_early_const useNala thr preds pats pOff hnc p.sentences 0 st

theorem patLoop_nomatch (useNala : Bool) (thr : Rat) (preds : List NPred) (base : Nat)
    (ntext : String) :
    ∀ (ps : List Pattern) (found : Bool) (st : ScanSt),
      (ps.filterMap (fun p => p ntext)) = [] →
      patLoop useNala thr preds base ntext ps found st = (found, st) := by
  intro ps
  induction ps with
  | nil => intro found st _; rfl
  | cons p ps ih =>
    intro found st hnil
    cases hp : p ntext with
    | none =>
      simp only [patLoop, hp]
      exact ih found st (by simpa [List.filterMap_cons, hp] using hnil)
    | some m =>
      simp [List.filterMap_cons, hp] at hnil

theorem sentLoop_nomatch (useNala : Bool) (thr : Rat) (preds : List NPred)
    (pats : List Pattern) (pOff : Nat) :
    ∀ (sents : List String) (sOff : Nat) (st : ScanSt),
      (∀ s ∈ sents, pats.filterMap (fun p => p (normalize s)) = []) →
      (sentLoop useNala thr preds pats pOff sents sOff st).2 = st := by
  intro sents
  induction sents with
  | nil => intro sOff st _; rfl
  | cons s rest ih =>
    intro sOff st hnil
    simp only [sentLoop]
    rw [patLoop_nomatch useNala thr preds (pOff + sOff) (normalize s) pats false st
      (hnil s (List.mem_cons_self s rest))]
    simp only [Bool.false_eq_true, if_false]
    exact ih (sOff + 2 + s.length) st (fun x hx => hnil x (List.mem_cons_of_mem s hx))

theorem partLoop_nomatch (useNala : Bool) (thr : Rat) (preds : List NPred)
    (pats : List Pattern) :
    ∀ (parts : List DocPart) (pOff : Nat) (st : ScanSt),
      (∀ p ∈ parts, ∀ s ∈ p.sentences,
        pats.filterMap (fun p2 => p2 (normalize s)) = []) →
      partLoop useNala thr preds pats parts pOff st = st := by
  intro parts
  induction parts with
  | nil => intro pOff st _; rfl
  | cons p rest ih =>
    intro pOff st hnil
    simp only [partLoop]
    rw [sentLoop_nomatch useNala thr preds pats pOff p.sentences 0 st
      (hnil p (List.mem_cons_self p rest))]
    exact ih _ st (fun q hq => hnil q (List.mem_cons_of_mem p hq))

theorem specPositiveSentences_zero (pats : List Pattern) (d : HDoc)
    (h : specPositiveSentences pats d = 0) :
    ∀ p ∈ d.parts, ∀ s ∈ p.sentences,
      pats.filterMap (fun p2 => p2 (normalize s)) = [] := by
  intro p hp s hs
  unfold specPositiveSentences at h
  rw [List.length_eq_zero] at h
  have hmem : s ∈ d.parts.flatMap (fun q => q.sentences) :=
    List.mem_flatMap.mpr ⟨p, hp, hs⟩
  have hns := List.filter_eq_nil_iff.mp h s hmem
  simpa [sentMatches] using hns

theorem scanDoc_nomatch (pats : List Pattern) (useNala : Bool) (thr : Rat) (d : HDoc)
    (h : specPositiveSentences pats d = 0) :
    scanDoc pats useNala thr d = ⟨0, 0, []⟩ := by
  unfold scanDoc
  exact partLoop_nomatch useNala thr d.nalaPreds pats d.parts 0 ⟨0, 0, []⟩
    (specPositiveSentences_zero pats d h)

theorem specSentSpans_nil (pats : List Pattern) (pOff : Nat) :
    ∀ (sents : List String) (sOff : Nat),
      specSentSpans pats pOff sents sOff = [] →
      ∀ s ∈ sents, sentMatches pats s = [] := by
  intro sents
  induction sents with
  | nil => intro sOff _ s hs; exact absurd hs (List.not_mem_nil s)
  | cons s0 rest ih =>
    intro sOff h s hs
    rw [specSentSpans, List.append_eq_nil] at h
    rcases List.mem_cons.mp hs with heq | hs2
    · subst heq
      have hmap := h.1
      rwa [List.map_eq_nil_iff] at hmap
    · exact ih _ h.2 s hs2

theorem specDocSpans_nil (pats : List Pattern) :
    ∀ (parts : List DocPart) (pOff : Nat),
      specDocSpans pats parts pOff = [] →
      ∀ p ∈ parts, ∀ s ∈ p.sentences, sentMatches pats s = [] := by
  intro parts
  induction parts with
  | nil => intro pOff _ p hp; exact absurd hp (List.not_mem_nil p)
  | cons p0 rest ih =>
    intro pOff h p hp s hs
    rw [specDocSpans, List.append_eq_nil] at h
    rcases List.mem_cons.mp hp with heq | hp2
    · subst heq
      exact specSentSpans_nil pats pOff _ 0 h.1 s hs
    · exact ih _ h.2 p hp2 s hs

theorem scanDoc_spans_ne (pats : List Pattern) (useNala : Bool) (thr : Rat) (d : HDoc)
    (h : 0 < specPositiveSentences pats d) :
    (scanDoc pats useNala thr d).spans.isEmpty = false := by
  cases hsp : (scanDoc pats useNala thr d).spans.isEmpty with
  | false => rfl
  | true =>
    exfalso
    have hnil : (scanDoc pats useNala thr d).spans = [] := by
      simpa [List.isEmpty_iff] using hsp
    have hspec : specDocSpans pats d.parts 0 = [] := by
      have hps := partLoop_spans useNala thr d.nalaPreds pats d.parts 0 ⟨0, 0, []⟩
      unfold scanDoc at hnil
      rw [hps] at hnil
      simpa using hnil
    have hall := specDocSpans_nil pats d.parts 0 hspec
    have hzero : specPositiveSentences pats d = 0 := by
      unfold specPositiveSentences
      rw [List.length_eq_zero, List.filter_eq_nil_iff]
      intro s hsmem
      obtain ⟨p, hp, hs⟩ := List.mem_flatMap.mp hsmem
      simp [hall p hp s hs]
    omega

/-- C3 (amended): every sentence in which at least one pattern matches
contributes exactly 2 to the positive count — once at its first match and
once more after its scan completes — and the document receives the final
accept iff this count plus the corroboration weight reaches `min_found`.
The weight is `min_found` per `subclass > 0` annotation of the document
copy bound to the `nala_doc` local at that moment: the current document's
own copy when it has at least one regex match, otherwise the last
previously matched document's copy — and a match-free `use_nala` document
arriving before any matched one raises `UnboundLocalError`, ending the run
with nothing yielded for it.  Without corroboration the accept test is the
count alone. -/
theorem hrr_positive_count (pats : List Pattern) (minFound : Nat) (thr : Rat)
    (k : Nat) (d : HDoc) (nd : Option (List NPred)) :
    (∀ useNala : Bool,
       (scanDoc pats useNala thr d).positives = 2 * specPositiveSentences pats d) ∧
    ((k, d) ∈ (hrrRun pats minFound false thr nd [(k, d)]).1 ↔
       minFound ≤ 2 * specPositiveSentences pats d) ∧
    (0 < specPositiveSentences pats d →
       ((k, d) ∈ (hrrRun pats minFound true thr nd [(k, d)]).1 ↔
         minFound ≤ 2 * specPositiveSentences pats d +
           nalaPredWeight minFound d.nalaPreds)) ∧
    (specPositiveSentences pats d = 0 →
       hrrRun pats minFound true thr none [(k, d)] = ([], false) ∧
       (∀ stale : List NPred,
         (k, d) ∈ (hrrRun pats minFound true thr (some stale) [(k, d)]).1 ↔
           minFound ≤ nalaPredWeight minFound stale)) := by
  have hpos : ∀ u : Bool,
      (scanDoc pats u thr d).positives = 2 * specPositiveSentences pats d := by
    intro u
    unfold scanDoc
    rw [partLoop_positives]
    simp [specPositiveSentences]
  refine ⟨hpos, ?_, ?_, ?_⟩
  · have he0 : (scanDoc pats false thr d).early = 0 := by
      unfold scanDoc
      rw [partLoop_early_const false thr d.nalaPreds pats (by simp)]
    simp only [hrrRun, Bool.false_eq_true, if_false, he0, List.replicate_zero,
      List.nil_append, List.append_nil]
    rw [hpos false]
    by_cases hth : minFound ≤ 2 * specPositiveSentences pats d
    · simp [hth]
    · simp [hth]
  · intro hgt
    have hsp : (scanDoc pats true thr d).spans.isEmpty = false :=
      scanDoc_spans_ne pats true thr d hgt
    simp only [hrrRun, hsp, Bool.false_eq_true, if_false, if_true, List.append_nil]
    constructor
    · intro hmem
      rcases List.mem_append.mp hmem with hmem | hmem
      · have hearly : (scanDoc pats true thr d).early ≠ 0 :=
          (List.mem_replicate.mp hmem).1
        have hsrc : (true : Bool) = true ∧ ∃ a ∈ d.nalaPreds,
            0 < a.subclass ∧ a.confidence ≤ thr := by
          by_contra hnc
          have h0 : (scanDoc pats true thr d).early = 0 := by
            unfold scanDoc
            rw [partLoop_early_const true thr d.nalaPreds pats hnc]
          exact hearly h0
        obtain ⟨-, a, hamem, hsub, hconf⟩ := hsrc
        have haf : a ∈ d.nalaPreds.filter (fun a => decide (0 < a.subclass)) :=
          List.mem_filter.mpr ⟨hamem, by simpa using hsub⟩
        have hlen : 1 ≤ (d.nalaPreds.filter (fun a => decide (0 < a.subclass))).length :=
          List.length_pos.mpr (List.ne_nil_of_mem haf)
        have hw : minFound ≤ nalaPredWeight minFound d.nalaPreds := by
          unfold nalaPredWeight
          calc minFound = 1 * minFound := (Nat.one_mul minFound).symm
          _ ≤ (d.nalaPreds.filter (fun a => decide (0 < a.subclass))).length * minFound :=
              Nat.mul_le_mul_right minFound hlen
        omega
      · by_cases hth : minFound ≤ (scanDoc pats true thr d).positives +
            nalaPredWeight minFound d.nalaPreds
        · rw [← hpos true]
          exact hth
        · rw [if_neg hth] at hmem
          exact absurd hmem (by simp)
    · intro hth
      have hth2 : minFound ≤ (scanDoc pats true thr d).positives +
          nalaPredWeight minFound d.nalaPreds := by
        rw [hpos true]
        exact hth
      rw [if_pos hth2]
      exact List.mem_append_right _ (by simp)
  · intro hz
    have hscan : scanDoc pats true thr d = ⟨0, 0, []⟩ :=
      scanDoc_nomatch pats true thr d hz
    constructor
    · simp [hrrRun, hscan]
    · intro stale
      simp only [hrrRun, hscan, List.isEmpty_nil, if_true, List.replicate_zero,
        List.nil_append, List.append_nil]
      by_cases hth : minFound ≤ 0 + nalaPredWeight minFound stale
      · simp only [if_pos hth]
        simp only [List.mem_singleton, true_iff]
        rw [Nat.zero_add] at hth
        exact hth
      · simp only [if_neg hth]
        simp only [List.not_mem_nil, false_iff]
        rw [Nat.zero_add] at hth
        exact hth

theorem hrr_positive_count_witness :
    (0 < specPositiveSentences [fun s => if s == "aa" then some (0, 2) else none]
        ⟨[⟨"aa", ["aa"]⟩], [⟨0, 2, 1, 0⟩]⟩ ∧
     specPositiveSentences [fun s => if s == "aa" then some (0, 2) else none]
        ⟨[⟨"zz", ["zz"]⟩], [⟨0, 2, 1, 0⟩]⟩ = 0) ∧
    ((9, (⟨[⟨"aa", ["aa"]⟩], [⟨0, 2, 1, 0⟩]⟩ : HDoc)) ∈
        (hrrRun [fun s => if s == "aa" then some (0, 2) else none] 1 true 1 none
          [(9, ⟨[⟨"aa", ["aa"]⟩], [⟨0, 2, 1, 0⟩]⟩)]).1 ↔
      1 ≤ 2 * specPositiveSentences [fun s => if s == "aa" then some (0, 2) else none]
          ⟨[⟨"aa", ["aa"]⟩], [⟨0, 2, 1, 0⟩]⟩ +
        nalaPredWeight 1 [⟨0, 2, 1, 0⟩]) ∧
    hrrRun [fun s => if s == "aa" then some (0, 2) else none] 1 true 1 none
      [(4, ⟨[⟨"zz", ["zz"]⟩], [⟨0, 2, 1, 0⟩]⟩)] = ([], false) ∧
    ((4, (⟨[⟨"zz", ["zz"]⟩], [⟨0, 2, 1, 0⟩]⟩ : HDoc)) ∈
        (hrrRun [fun s => if s == "aa" then some (0, 2) else none] 1 true 1
          (some [⟨0, 2, 1, 0⟩]) [(4, ⟨[⟨"zz", ["zz"]⟩], [⟨0, 2, 1, 0⟩]⟩)]).1 ↔
      1 ≤ nalaPredWeight 1 [⟨0, 2, 1, 0⟩]) := by
  have hA := hrr_positive_count [fun s => if s == "aa" then some (0, 2) else none]
    1 1 9 ⟨[⟨"aa", ["aa"]⟩], [⟨0, 2, 1, 0⟩]⟩ none
  have hB := hrr_positive_count [fun s => if s == "aa" then some (0, 2) else none]
    1 1 4 ⟨[⟨"zz", ["zz"]⟩], [⟨0, 2, 1, 0⟩]⟩ none
  refine ⟨⟨by decide, by decide⟩, ?_, ?_, ?_⟩
  · exact hA.2.2.1 (by decide)
  · exact (hB.2.2.2 (by decide)).1
  · exact (hB.2.2.2 (by decide)).2 [⟨0, 2, 1, 0⟩]

/-- C3 counterexample, three concrete divergences from the claim as stated.
(i) With `min_found = 2`, no corroboration and exactly one pattern-matching
sentence, the claim predicts rejection (count 1 below threshold 2) but the
document is accepted: the sentence is counted twice.  (ii) A `use_nala`
document with no regex match crashes the run (`nala_doc` unbound in the
corroboration pass): nothing is yielded and no later document is ever
reached, whereas under the claim filtering would simply continue.  (iii)
The same match-free document with no model annotations of its own — per
the claim rejected, count and weight both 0 — is accepted right after a
matched document, because the corroboration pass reads the previous
document's copy. -/
theorem hrr_double_count :
    (hrrRun [fun s => if s == "aa" then some (0, 2) else none] 2 false 1 none
        [(3, ⟨[⟨"aa", ["aa"]⟩], []⟩)]).1 = [(3, ⟨[⟨"aa", ["aa"]⟩], []⟩)] ∧
    specPositiveSentences [fun s => if s == "aa" then some (0, 2) else none]
      ⟨[⟨"aa", ["aa"]⟩], []⟩ = 1 ∧
    hrrRun [fun s => if s == "aa" then some (0, 2) else none] 1 true 1 none
      [(7, ⟨[⟨"zz", ["zz"]⟩], [⟨0, 2, 1, 0⟩]⟩), (3, ⟨[⟨"aa", ["aa"]⟩], []⟩)] =
      ([], false) ∧
    (hrrRun [fun s => if s == "aa" then some (0, 2) else none] 1 true 1 none
        [(9, ⟨[⟨"aa", ["aa"]⟩], [⟨0, 2, 1, 0⟩]⟩), (8, ⟨[⟨"zz", ["zz"]⟩], []⟩)]).1 =
      [(9, ⟨[⟨"aa", ["aa"]⟩], [⟨0, 2, 1, 0⟩]⟩), (9, ⟨[⟨"aa", ["aa"]⟩], [⟨0, 2, 1, 0⟩]⟩),
       (8, ⟨[⟨"zz", ["zz"]⟩], []⟩)] := by
  refine ⟨by decide, by decide, by decide, by decide⟩

/-- C6: the absolute span reported for a regex match is `part_offset +
sent_offset` plus the local match span, where `sent_offset` is the sum of
the preceding sentences' lengths plus 2 within the part and `part_offset`
the cumulative span consumed by the prior parts' sentences; for the
single-part document "AA. BB" split into ["AA", "BB"] and a pattern
matching the normalized "BB", the recorded span is (4, 6), which slices the
substring "BB" out of the raw part text. -/
theorem hrr_offset_spans :
    (∀ (pats : List Pattern) (useNala : Bool) (thr : Rat) (d : HDoc),
       (scanDoc pats useNala thr d).spans = specDocSpans pats d.parts 0) ∧
    (scanDoc [fun s => if s == "bb" then some (0, 2) else none] false 1
       ⟨[⟨"AA. BB", ["AA", "BB"]⟩], []⟩).spans = [(4, 6)] ∧
    stringSlice "AA. BB" 4 6 = "BB" := by
  refine ⟨?_, by decide, by decide⟩
  intro pats useNala thr d
  unfold scanDoc
  rw [partLoop_spans]
  simp

theorem mdfRun_out_sublist {α : Type} :
    ∀ (docs : List (Nat × α)) (cache : List (Nat × Bool)) (answers : List String),
      List.Sublist (((mdfRun cache answers docs).map (fun r => r.1)).getD []) docs := by
  intro docs
  induction docs with
  | nil => intro cache answers; simp [mdfRun]
  | cons q rest ih =>
    intro cache answers
    obtain ⟨pmid, d⟩ := q
    simp only [mdfRun]
    cases hq : lookupCache pmid cache with
    | some b =>
      cases hrec : mdfRun cache answers rest with
      | none => simp [prependIf]
      | some r =>
        obtain ⟨o, c, rm⟩ := r
        have hsub : List.Sublist o rest := by
          have hi := ih cache answers
          rw [hrec] at hi
          simpa using hi
        cases b with
        | true => simpa [prependIf] using List.Sublist.cons₂ (pmid, d) hsub
        | false => simpa [prependIf] using List.Sublist.cons (pmid, d) hsub
    | none =>
      cases answers with
      | nil => simp
      | cons ans restAns =>
        simp only
        by_cases hs : (lowerStr ans == "s") = true
        · rw [if_pos hs]
          simp
        · rw [if_neg hs]
          cases hrec : mdfRun ((pmid, isYes (lowerStr ans)) :: cache) restAns rest with
          | none => simp [prependIf]
          | some r =>
            obtain ⟨o, c, rm⟩ := r
            have hsub : List.Sublist o rest := by
              have hi := ih ((pmid, isYes (lowerStr ans)) :: cache) restAns
              rw [hrec] at hi
              simpa using hi
            cases hb : isYes (lowerStr ans) with
            | true =>
              rw [hb] at hrec
              simpa [prependIf, hrec] using List.Sublist.cons₂ (pmid, d) hsub
            | false =>
              rw [hb] at hrec
              simpa [prependIf, hrec] using List.Sublist.cons (pmid, d) hsub

theorem msfRun_out_sublist {α : Type} (yesAnswers : List String) :
    ∀ (docs : List (Nat × α)) (cache : List (Nat × Bool)) (answers : List String),
      List.Sublist (((msfRun yesAnswers cache answers docs).map (fun r => r.1)).getD [])
        docs := by
  intro docs
  induction docs with
  | nil => intro cache answers; simp [msfRun]
  | cons q rest ih =>
    intro cache answers
    obtain ⟨docid, d⟩ := q
    simp only [msfRun]
    cases hq : lookupCache docid cache with
    | some b =>
      cases hrec : msfRun yesAnswers cache answers rest with
      | none => simp [prependIf]
      | some r =>
        obtain ⟨o, c, rm⟩ := r
        have hsub : List.Sublist o rest := by
          have hi := ih cache answers
          rw [hrec] at hi
          simpa using hi
        cases b with
        | true => simpa [prependIf] using List.Sublist.cons₂ (docid, d) hsub
        | false => simpa [prependIf] using List.Sublist.cons (docid, d) hsub
    | none =>
      cases hpr : msfPrompt yesAnswers answers with
      | none => simp
      | some t =>
        obtain ⟨tok, restAns⟩ := t
        simp only
        by_cases hst : (tok == "stop") = true
        · rw [if_pos hst]
          simp
        · rw [if_neg hst]
          cases hrec : msfRun yesAnswers ((docid, yesAnswers.contains tok) :: cache)
              restAns rest with
          | none => simp [prependIf]
          | some r =>
            obtain ⟨o, c, rm⟩ := r
            have hsub : List.Sublist o rest := by
              have hi := ih ((docid, yesAnswers.contains tok) :: cache) restAns
              rw [hrec] at hi
              simpa using hi
            cases hb : yesAnswers.contains tok with
            | true =>
              rw [hb] at hrec
              simpa [prependIf, hrec] using List.Sublist.cons₂ (docid, d) hsub
            | false =>
              rw [hb] at hrec
              simpa [prependIf, hrec] using List.Sublist.cons (docid, d) hsub

theorem hrrRun_shape (pats : List Pattern) (minFound : Nat) (useNala : Bool)
    (thr : Rat) :
    ∀ (docs : List (Nat × HDoc)) (nd : Option (List NPred)),
      ∃ ks : List Nat, ks.length ≤ docs.length ∧
        (hrrRun pats minFound useNala thr nd docs).1 =
          (docs.zip ks).flatMap (fun q => List.replicate q.2 q.1) := by
  intro docs
  induction docs with
  | nil => intro nd; exact ⟨[], by simp, by simp [hrrRun]⟩
  | cons pd rest ih =>
    intro nd
    obtain ⟨pmid, d⟩ := pd
    cases hu : useNala with
    | false =>
      simp only [hu] at ih
      obtain ⟨ks, hlen, hout⟩ :=
        ih (if (scanDoc pats false thr d).spans.isEmpty then nd else some d.nalaPreds)
      by_cases hth : minFound ≤ (scanDoc pats false thr d).positives
      · refine ⟨((scanDoc pats false thr d).early + 1) :: ks, by simpa using hlen, ?_⟩
        simp only [hrrRun, Bool.false_eq_true, if_false, if_pos hth, hout,
          List.zip_cons_cons, List.flatMap_cons, List.replicate_succ']
        try simp [List.append_assoc]
      · refine ⟨(scanDoc pats false thr d).early :: ks, by simpa using hlen, ?_⟩
        simp only [hrrRun, Bool.false_eq_true, if_false, if_neg hth, hout,
          List.zip_cons_cons, List.flatMap_cons]
        try simp
    | true =>
      simp only [hu] at ih
      cases hnd2 : (if (scanDoc pats true thr d).spans.isEmpty then nd
          else some d.nalaPreds) with
      | none =>
        refine ⟨[(scanDoc pats true thr d).early], by simp, ?_⟩
        simp only [hrrRun, hnd2]
        try simp
      | some preds =>
        obtain ⟨ks, hlen, hout⟩ := ih (some preds)
        by_cases hth : minFound ≤ (scanDoc pats true thr d).positives +
            nalaPredWeight minFound preds
        · refine ⟨((scanDoc pats true thr d).early + 1) :: ks, by simpa using hlen, ?_⟩
          simp only [hrrRun, hnd2, if_pos hth, hout, List.zip_cons_cons,
            List.flatMap_cons, List.replicate_succ']
          try simp [List.append_assoc]
        · refine ⟨(scanDoc pats true thr d).early :: ks, by simpa using hlen, ?_⟩
          simp only [hrrRun, hnd2, if_neg hth, hout, List.zip_cons_cons,
            List.flatMap_cons]
          try simp

/-- C2 (amended): every filter yields only input pairs in input relative
order.  `StubDocumentFilter` yields the input unchanged;
`KeywordsDocumentFilter`, both manual filters and `QuickNalaFilter` yield
genuine subsequences (each pair at most once); `HighRecallRegexDocumentFilter`
yields, over the prefix of the input it processes before a possible
`UnboundLocalError`, each pair a (possibly zero) number of consecutive
times — the same pair more than once when corroborated matches trigger
early yields and the final threshold accept fires as well. -/
theorem filters_order_amended :
    (∀ (l : List (Nat × HDoc)), stubFilter l = l) ∧
    (∀ (kws : List (String → Bool)) (docs : List (Nat × List String)),
       List.Sublist (keywordsFilter kws docs) docs) ∧
    (∀ (α : Type) (cache : List (Nat × Bool)) (answers : List String)
       (docs : List (Nat × α)),
       List.Sublist (((mdfRun cache answers docs).map (fun r => r.1)).getD []) docs) ∧
    (∀ (α : Type) (yesAnswers : List String) (cache : List (Nat × Bool))
       (answers : List String) (docs : List (Nat × α)),
       List.Sublist (((msfRun yesAnswers cache answers docs).map (fun r => r.1)).getD [])
         docs) ∧
    (∀ (thr : Rat) (docs : List (Nat × HDoc)),
       List.Sublist (quickNalaFilter thr docs) docs) ∧
    (∀ (pats : List Pattern) (minFound : Nat) (useNala : Bool) (thr : Rat)
       (nd : Option (List NPred)) (docs : List (Nat × HDoc)),
       ∃ ks : List Nat, ks.length ≤ docs.length ∧
         (hrrRun pats minFound useNala thr nd docs).1 =
           (docs.zip ks).flatMap (fun q => List.replicate q.2 q.1)) := by
  refine ⟨?_, ?_, ?_, ?_, ?_, ?_⟩
  · intro l
    induction l with
    | nil => rfl
    | cons x xs ih => simp [stubFilter, ih]
  · intro kws docs
    induction docs generalizing kws with
    | nil => simp [keywordsFilter]
    | cons d ds ih =>
      simp only [keywordsFilter]
      cases hscan : kwScanParts d.2 kws with
      | mk b ps2 =>
        cases b with
        | true => simpa using List.Sublist.cons₂ d (ih ps2)
        | false => exact List.Sublist.cons d (ih ps2)
  · intro α cache answers docs
    exact mdfRun_out_sublist docs cache answers
  · intro α yesAnswers cache answers docs
    exact msfRun_out_sublist yesAnswers docs cache answers
  · intro thr docs
    induction docs with
    | nil => simp [quickNalaFilter]
    | cons q rest ih =>
      obtain ⟨pmid, d⟩ := q
      simp only [quickNalaFilter]
      by_cases hf : ((d.nalaPreds.filter (fun a =>
          decide (a.subclass ≠ 0) && decide (a.confidence ≤ thr))).isEmpty) = true
      · rw [if_pos hf]
        exact List.Sublist.cons (pmid, d) ih
      · rw [if_neg hf]
        exact List.Sublist.cons₂ (pmid, d) ih
  · intro pats minFound useNala thr nd docs
    exact hrrRun_shape pats minFound useNala thr docs nd

/-- C2 counterexample: with nala corroboration on, a document whose single
matching sentence is corroborated (subclass 1, confidence 0 at threshold 1)
and which also reaches the positive-sentence threshold is yielded twice —
once early and once at the end — so a pair is yielded more than once and
the output is not a subsequence of the input. -/
theorem hrr_duplicate_yield :
    (hrrRun [fun s => if s == "aa" then some (0, 2) else none] 1 true 1 none
        [(9, ⟨[⟨"aa", ["aa"]⟩], [⟨0, 2, 1, 0⟩]⟩)]).1 =
      [(9, ⟨[⟨"aa", ["aa"]⟩], [⟨0, 2, 1, 0⟩]⟩),
       (9, ⟨[⟨"aa", ["aa"]⟩], [⟨0, 2, 1, 0⟩]⟩)] := by
  decide

/-- C5 evidence: with identity calc functions, exact per-fold counts
`[1,0,0,0,0,...]` and overlapping per-fold counts `[2,0,0,0,0,...]`, the
emitted `sum_of_folds`/`overlapping`/`total` row carries the summed *exact*
counts `[1,0,0,0,0]` although the summed overlapping counts are
`[2,0,0,0,0]`: the source feeds `folds_results_exact` (and
`subclass_averages_exact`) into the overlapping sum-of-folds rows, while
the `average` rows do use each strictness's own per-fold values. -/
theorem cv_sum_of_folds_mixed :
    cvAggregateRows (fun l => l) (fun l => l) [] []
        [[1, 0, 0, 0, 0, 0, 0, 0]] [[2, 0, 0, 0, 0, 0, 0, 0]] =
      [⟨"average", "exact", "total", [1, 0, 0, 0, 0, 0, 0, 0]⟩,
       ⟨"average", "overlapping", "total", [2, 0, 0, 0, 0, 0, 0, 0]⟩,
       ⟨"sum_of_folds", "exact", "total", [1, 0, 0, 0, 0]⟩,
       ⟨"sum_of_folds", "overlapping", "total", [1, 0, 0, 0, 0]⟩] ∧
    (sumCols [[2, 0, 0, 0, 0, 0, 0, 0]]).take 5 = [2, 0, 0, 0, 0] := by
  constructor
  · norm_num [cvAggregateRows, avgCols, sumCols, colsOf]
  · norm_num [sumCols, colsOf]

end NalaModel

